import Mathlib

/-
  Verification development for `src/PP_SPDC_simulation_jax.py` (SPDCinv).

  The script simulates spontaneous parametric down-conversion: for N trials it
  propagates vacuum-seeded signal/idler fields through a crystal, Fourier
  transforms them to the far field, and accumulates the correlation matrices
  G1 and Q (each an M²×M² complex matrix over the flattened transverse mode
  index, stored in `np.kron` layout per the header comments of the source).
  After the loop it composes G2 = Re(G1.ii ⊙ G1.ss + Q.si† ⊙ Q.si + G1.si† ⊙ G1.si)
  and extracts the photodetection diagonal of G1 with the precomputed
  `Kron_diag` 0/1 indicator matrix.

  Machine complex floats are embedded as exact complex numbers with rational
  components (`Cq`), so every definition is computable and decidable on
  concrete inputs.  Code living in `All_SPDC_funcs.py` (not present under
  src/) is modelled from the spec, as flagged by doc comments.
-/

/-- Complex scalars with rational components; exact stand-in for the complex
floating point numbers of the simulation. -/
structure Cq where
  re : ℚ
  im : ℚ
deriving DecidableEq, Repr

namespace Cq

/-- Additive identity. -/
def zero : Cq := ⟨0, 0⟩

instance : Zero Cq := ⟨zero⟩

/-- Componentwise addition, as for numpy complex arrays. -/
def add (x y : Cq) : Cq := ⟨x.re + y.re, x.im + y.im⟩

instance : Add Cq := ⟨add⟩

/-- Complex multiplication. -/
def mul (x y : Cq) : Cq := ⟨x.re * y.re - x.im * y.im, x.re * y.im + x.im * y.re⟩

instance : Mul Cq := ⟨mul⟩

/-- Complex conjugation (`np.conj`). -/
def conj (x : Cq) : Cq := ⟨x.re, -x.im⟩

/-- Division by a natural number, as in the `/ N` normalization of the
accumulator updates. -/
def divN (x : Cq) (N : ℕ) : Cq := ⟨x.re / (N : ℚ), x.im / (N : ℚ)⟩

/-- Division by a rational scalar (e.g. the `G1_Normalization` factor). -/
def divQ (x : Cq) (a : ℚ) : Cq := ⟨x.re / a, x.im / a⟩

/-- Scaling by a real (rational) factor, e.g. the far-field normalization. -/
def smul (a : ℚ) (x : Cq) : Cq := ⟨a * x.re, a * x.im⟩

theorem ext_iff {x y : Cq} : x = y ↔ x.re = y.re ∧ x.im = y.im := by
  constructor
  · intro h; exact ⟨congrArg Cq.re h, congrArg Cq.im h⟩
  · rintro ⟨h1, h2⟩; cases x; cases y; cases h1; cases h2; rfl

theorem add_def (x y : Cq) : x + y = ⟨x.re + y.re, x.im + y.im⟩ := rfl

theorem mul_def (x y : Cq) :
    x * y = ⟨x.re * y.re - x.im * y.im, x.re * y.im + x.im * y.re⟩ := rfl

theorem conj_add (x y : Cq) : conj (x + y) = conj x + conj y := by
  simp [conj, add_def, ext_iff]; ring

theorem conj_divN (x : Cq) (N : ℕ) : conj (divN x N) = divN (conj x) N := by
  simp [conj, divN, ext_iff]; ring

theorem conj_zero : conj (0 : Cq) = 0 := by
  simp [conj, ext_iff]; rfl

/-- Conjugating a product whose left factor is conjugated swaps the roles of
the two factors. -/
theorem conj_conj_mul (x y : Cq) : conj (conj x * y) = conj y * x := by
  simp [conj, mul_def, ext_iff]; constructor <;> ring

end Cq

/-- A transverse field amplitude: complex M×M array. -/
abbrev Fld (M : ℕ) := Fin M → Fin M → Cq

/-- An M²×M² complex matrix over flattened mode-pair indices. -/
abbrev Mat2 (M : ℕ) := Fin (M * M) → Fin (M * M) → Cq

/-- An M²×M² real matrix (e.g. `Kron_diag`, or the real G2). -/
abbrev Mat2Q (M : ℕ) := Fin (M * M) → Fin (M * M) → ℚ

/-- One trial's standard-normal vacuum draw: shape (2, Nx, Ny) as in
`random.normal(key, (N, 2, Nx, Ny))` sliced at a trial index. -/
abbrev Vac (M : ℕ) := Fin 2 → Fin M → Fin M → ℚ

/-- First index of the pair encoded by a flattened index (numerator of the
Kronecker row/column decomposition r = i·M + k). -/
def fdiv {M : ℕ} (r : Fin (M * M)) : Fin M :=
  ⟨r.val / M, by
    have hM : 0 < M := by
      by_contra h
      have hM0 : M = 0 := by omega
      subst hM0
      have := r.isLt
      omega
    exact (Nat.div_lt_iff_lt_mul hM).mpr r.isLt⟩

/-- Second index of the pair encoded by a flattened index. -/
def fmod {M : ℕ} (r : Fin (M * M)) : Fin M :=
  ⟨r.val % M, by
    have hM : 0 < M := by
      by_contra h
      have hM0 : M = 0 := by omega
      subst hM0
      have := r.isLt
      omega
    exact Nat.mod_lt _ hM⟩

/-- Pairing of two mode indices into a flattened index, i·M + j. -/
def pairF {M : ℕ} (i j : Fin M) : Fin (M * M) :=
  ⟨i.val * M + j.val, by
    show i.val * M + j.val + 1 ≤ M * M
    calc i.val * M + j.val + 1 ≤ i.val * M + M := by
          have := j.isLt
          omega
    _ = (i.val + 1) * M := by ring
    _ ≤ M * M := Nat.mul_le_mul_right M i.isLt⟩

theorem fdiv_pairF {M : ℕ} (i j : Fin M) : fdiv (pairF i j) = i := by
  apply Fin.ext
  show (i.val * M + j.val) / M = i.val
  have hM : 0 < M := Nat.lt_of_le_of_lt (Nat.zero_le _) j.isLt
  rw [Nat.add_comm, Nat.add_mul_div_right _ _ hM]
  rw [Nat.div_eq_of_lt j.isLt, Nat.zero_add]

theorem fmod_pairF {M : ℕ} (i j : Fin M) : fmod (pairF i j) = j := by
  apply Fin.ext
  show (i.val * M + j.val) % M = j.val
  rw [Nat.add_comm, Nat.add_mul_mod_self_right]
  exact Nat.mod_eq_of_lt j.isLt

theorem pairF_fdiv_fmod {M : ℕ} (r : Fin (M * M)) : pairF (fdiv r) (fmod r) = r := by
  apply Fin.ext
  show r.val / M * M + r.val % M = r.val
  rw [Nat.mul_comm]
  exact Nat.div_add_mod r.val M

/-- The flattened index t·(M+1) of the t-th selected row/column of the
`[::M+1]` slice; encodes the equal-pair position (t, t) under the Kronecker
layout. -/
def finMulDiag {M : ℕ} (t : Fin M) : Fin (M * M) :=
  ⟨t.val * (M + 1), by
    show t.val * (M + 1) + 1 ≤ M * M
    calc t.val * (M + 1) + 1 = t.val * M + (t.val + 1) := by ring
    _ ≤ t.val * M + M := by
          have := t.isLt
          omega
    _ = (t.val + 1) * M := by ring
    _ ≤ M * M := Nat.mul_le_mul_right M t.isLt⟩

/-- Elementwise conjugation of a field array (`np.conj`). -/
def conjF {M : ℕ} (E : Fld M) : Fld M := fun i j => Cq.conj (E i j)

/-- Kronecker product of two M×M arrays into an M²×M² matrix, following
`np.kron`: entry (i·M+k, j·M+l) is A[i,j]·B[k,l].  This is the layout the
source announces in its header comments for all accumulator matrices. -/
def kron {M : ℕ} (A B : Fld M) : Mat2 M :=
  fun r c => A (fdiv r) (fdiv c) * B (fmod r) (fmod c)

theorem kron_pairF {M : ℕ} (A B : Fld M) (i k j l : Fin M) :
    kron A B (pairF i k) (pairF j l) = A i j * B k l := by
  unfold kron
  rw [fdiv_pairF, fmod_pairF, fdiv_pairF, fmod_pairF]

/-- Scaling of a field array by a real factor. -/
def smulF {M : ℕ} (a : ℚ) (E : Fld M) : Fld M := fun i j => Cq.smul a (E i j)

/-- Correlation accumulator state: the three running matrices `ii`, `ss`,
`si` plus the stored conjugate transpose `si_dagger`, each M²×M² (squareness
is enforced by the type `Mat2 M`). -/
structure CorrState (M : ℕ) where
  ii : Mat2 M
  ss : Mat2 M
  si : Mat2 M
  si_dagger : Mat2 M

/-- All-zero accumulator state (`np.zeros`, the `G1_mat()`/`Q_mat()`
constructors). -/
def zeroCorr (M : ℕ) : CorrState M :=
  { ii := fun _ _ => 0, ss := fun _ _ => 0, si := fun _ _ => 0,
    si_dagger := fun _ _ => 0 }

/-- Modelled from the spec: `G1_mat.update` of `All_SPDC_funcs.py` (absent
from src/).  Per spec §4.3, the call `update(E_s_out_k, E_s_vac_k, E_i_out_k,
E_i_vac_k, N)` adds to each of `ii`, `ss`, `si` the Kronecker outer product of
the corresponding vacuum-field pair divided by N (G1 correlates each field's
vacuum component with a conjugated vacuum component), and sets `si_dagger` to
the conjugate transpose of the updated `si`.  The `np.kron` layout is the one
the source's header comments document. -/
def G1update {M : ℕ} (s : CorrState M) (EsOut EsVac EiOut EiVac : Fld M)
    (N : ℕ) : CorrState M :=
  let si' : Mat2 M := fun r c => s.si r c + Cq.divN (kron (conjF EiVac) EsVac r c) N
  { ii := fun r c => s.ii r c + Cq.divN (kron (conjF EiVac) EiVac r c) N
    ss := fun r c => s.ss r c + Cq.divN (kron (conjF EsVac) EsVac r c) N
    si := si'
    si_dagger := fun r c => Cq.conj (si' c r) }

/-- Modelled from the spec: `Q_mat.update` of `All_SPDC_funcs.py` (absent
from src/).  Per spec §4.3, Q correlates the output and vacuum components of
possibly different fields (⟨a a⟩-type pair amplitude, no conjugation) for the
three pair combinations, adds each Kronecker product divided by N, and sets
`si_dagger` to the conjugate transpose of the updated `si`. -/
def Qupdate {M : ℕ} (s : CorrState M) (EsOut EsVac EiOut EiVac : Fld M)
    (N : ℕ) : CorrState M :=
  let si' : Mat2 M := fun r c => s.si r c + Cq.divN (kron EiOut EsVac r c) N
  { ii := fun r c => s.ii r c + Cq.divN (kron EiOut EiVac r c) N
    ss := fun r c => s.ss r c + Cq.divN (kron EsOut EsVac r c) N
    si := si'
    si_dagger := fun r c => Cq.conj (si' c r) }

/-- Partial sums of a sequence of complex values: `sumUpTo f k = f 0 + ... + f (k-1)`. -/
def sumUpTo (f : ℕ → Cq) : ℕ → Cq
  | 0 => 0
  | k + 1 => sumUpTo f k + f k

/-- The G1 accumulator state after `k` update calls, fed by an arbitrary
sequence of per-trial argument tuples `(E_s_out_k, E_s_vac_k, E_i_out_k,
E_i_vac_k)` and the fixed trial count `N` (the loop always passes the total
`N`, src lines 117 and 163). -/
def G1iter {M : ℕ} (args : ℕ → Fld M × Fld M × Fld M × Fld M) (N : ℕ) : ℕ → CorrState M
  | 0 => zeroCorr M
  | k + 1 =>
    let a := args k
    G1update (G1iter args N k) a.1 a.2.1 a.2.2.1 a.2.2.2 N

/-- The Q accumulator state after `k` update calls (src lines 122 and 168). -/
def Qiter {M : ℕ} (args : ℕ → Fld M × Fld M × Fld M × Fld M) (N : ℕ) : ℕ → CorrState M
  | 0 => zeroCorr M
  | k + 1 =>
    let a := args k
    Qupdate (Qiter args N k) a.1 a.2.1 a.2.2.1 a.2.2.2 N

/-- Modelled from the spec (the invariant asserted by claim C2 and spec §3):
the arithmetic mean over the first `k` trials of the Kronecker outer product
of a conjugated vacuum field with itself — the sum of the `k` per-trial outer
products divided by `k`. -/
def meanOuterK {M : ℕ} (vac : ℕ → Fld M) (k : ℕ) : Mat2 M :=
  fun r c => Cq.divN (sumUpTo (fun n => kron (conjF (vac n)) (vac n) r c) k) k

/-- Membership of an index in the numpy slice `[::d]` of an array: the index
is one of 0, d, 2·d, ….  Executable form of the slice-selection used to build
`Kron_diag` (src line 70). -/
def inSlice (d r : ℕ) : Bool := (List.range (r + 1)).any (fun t => r == t * d)

/-- Diagonal-element indicator matrix for the Kronecker products, src lines
69-70: a real M²×M² matrix of zeros with ones written at the row/column
slices `[::M+1, ::M+1]`. -/
def Kron_diag (M : ℕ) : Mat2Q M :=
  fun r c => if inSlice (M + 1) r.val && inSlice (M + 1) c.val then 1 else 0

/-- Row-major numpy boolean masking `A[mask]` of a square array: traverse the
positions in row-major order and collect the entries where the mask holds. -/
def boolMask {α : Type} {m : ℕ} (A : Fin m → Fin m → α) (mask : Fin m → Fin m → Bool) :
    List α :=
  (List.finRange m).flatMap fun r =>
    ((List.finRange m).filter (fun c => mask r c)).map (fun c => A r c)

/-- Entry (i, j) of the numpy reshape of a flat list to an M×M array. -/
def reshapeIdx {α : Type} (M : ℕ) (L : List α) (d : α) (i j : Fin M) : α :=
  L.getD (i.val * M + j.val) d

/-- The M×M×M×M view of an M²×M² matrix stored in `np.kron` layout: the
4-index entry (i, j, k, l) sits at matrix position (i·M+k, j·M+l). -/
def kron4View {M : ℕ} (K : Mat2 M) (i j k l : Fin M) : Cq :=
  K (pairF i k) (pairF j l)

/-- The photodetection map computed by the source (src line 211 for `ii`,
212 for `ss`): boolean-mask the M²×M² matrix by the nonzero positions of
`Kron_diag`, reshape the selected entries to M×M, and divide by the
`G1_Normalization` scalar. -/
def P_masked {M : ℕ} (K : Mat2 M) (gnorm : ℚ) (i j : Fin M) : Cq :=
  Cq.divQ
    (reshapeIdx M (boolMask K (fun r c => decide (Kron_diag M r c ≠ 0))) 0 i j)
    gnorm

/-- The per-element double loop retained as a reference in the source (src
lines 197-202): `P[i,j] = G1.ii[i,j,i,j] / G1_Normalization(w)`, indexing the
four-dimensional (Kronecker) view of the accumulator matrix. -/
def P_elementLoop {M : ℕ} (K : Mat2 M) (gnorm : ℚ) (i j : Fin M) : Cq :=
  Cq.divQ (kron4View K i j i j) gnorm

/-- Modelled from the spec: `unwrap_kron` of `All_SPDC_funcs.py` (absent from
src/), per spec §4.5 — reconstruct the M×M×M×M form of an M²×M² tensor by
inverting the row/column flattening, index i·M+j ↦ (i, j). -/
def unwrap_kron {α : Type} (M : ℕ) (T : Fin (M * M) → Fin (M * M) → α)
    (i j k l : Fin M) : α :=
  T (pairF i j) (pairF k l)

/-- Re-flattening of an M×M×M×M tensor with the same index map
(i, j) ↦ i·M+j that `unwrap_kron` inverts. -/
def reflatten {α : Type} (M : ℕ) (U : Fin M → Fin M → Fin M → Fin M → α) :
    Fin (M * M) → Fin (M * M) → α :=
  fun r c => U (fdiv r) (fmod r) (fdiv c) (fmod c)

/-- G2 composition, src line 244:
`G2 = np.real(G1.ii * G1.ss + Q.si_dagger * Q.si + G1.si_dagger * G1.si)`,
an element-wise (Hadamard) computation producing a real M²×M² matrix. -/
def composeG2 {M : ℕ} (g1 q : CorrState M) : Mat2Q M :=
  fun r c =>
    (g1.ii r c * g1.ss r c + q.si_dagger r c * q.si r c + g1.si_dagger r c * g1.si r c).re

/-- Joint state of the two accumulators created before the trial loop
(src lines 85-86). -/
structure SimState (M : ℕ) where
  G1 : CorrState M
  Q : CorrState M

/-- Run configuration and external collaborators of the core, per spec §6:
the trial count, the degeneracy flag, the reproducible random source
(seed ↦ trial ↦ standard-normal array, modelling `random.normal`), the
crystal propagators and Fourier transform of `All_SPDC_funcs.py` (absent from
src/, hence abstract pure functions per spec §4.1-§4.2), the far-field
normalization scalars (src lines 108, 151-152) and the `G1_Normalization`
scalars used by the photodetection maps. -/
structure Params (M : ℕ) where
  N : ℕ
  isIndist : Bool
  sampler : ℕ → ℕ → Vac M
  cryPropInd : Vac M → Fld M × Fld M
  cryProp : Vac M → Vac M → (Fld M × Fld M) × (Fld M × Fld M)
  fourier : Fld M → Fld M
  ffnormS : ℚ
  ffnormI : ℚ
  gnormI : ℚ
  gnormS : ℚ

/-- One degenerate-mode trial, src lines 101-112: build and propagate only the
signal field, then Fourier transform and normalize its output and vacuum
components.  Returns `(E_s_out_k, E_s_vac_k)`. -/
def degTrial {M : ℕ} (p : Params M) (vac : Vac M) : Fld M × Fld M :=
  let nf := p.cryPropInd vac
  (smulF p.ffnormS (p.fourier nf.1), smulF p.ffnormS (p.fourier nf.2))

/-- The argument tuple passed to both `G1.update` and `Q.update` in the
degenerate branch (src lines 117 and 122): the signal far-field pair occupies
the signal slots and the idler slots alike. -/
def degArgs {M : ℕ} (p : Params M) (vac : Vac M) : Fld M × Fld M × Fld M × Fld M :=
  let Ek := degTrial p vac
  (Ek.1, Ek.2, Ek.1, Ek.2)

/-- One degenerate-mode accumulation step (src lines 117 and 122). -/
def stepDeg {M : ℕ} (p : Params M) (vac : Vac M) (st : SimState M) : SimState M :=
  let a := degArgs p vac
  { G1 := G1update st.G1 a.1 a.2.1 a.2.2.1 a.2.2.2 p.N
    Q := Qupdate st.Q a.1 a.2.1 a.2.2.1 a.2.2.2 p.N }

/-- One distinguishable-mode trial, src lines 143-158: build and propagate
signal and idler fields from their two vacuum draws, Fourier transform and
normalize all four components.  Returns the signal pair and the idler pair. -/
def distTrial {M : ℕ} (p : Params M) (vacS vacI : Vac M) :
    (Fld M × Fld M) × (Fld M × Fld M) :=
  let nf := p.cryProp vacS vacI
  ((smulF p.ffnormS (p.fourier nf.1.1), smulF p.ffnormS (p.fourier nf.1.2)),
   (smulF p.ffnormI (p.fourier nf.2.1), smulF p.ffnormI (p.fourier nf.2.2)))

/-- One distinguishable-mode accumulation step (src lines 163 and 168). -/
def stepDist {M : ℕ} (p : Params M) (vacS vacI : Vac M) (st : SimState M) : SimState M :=
  let E := distTrial p vacS vacI
  { G1 := G1update st.G1 E.1.1 E.1.2 E.2.1 E.2.2 p.N
    Q := Qupdate st.Q E.1.1 E.1.2 E.2.1 E.2.2 p.N }

/-- The accumulator trajectory of the run: state after `k` completed trials,
starting from the zero accumulators (src lines 85-86) and stepping through
the branch selected by `IS_INDISTIGUISHABLE` (src lines 95-178).  The two
vacuum arrays are drawn from the two PRNG seeds (src lines 77-82); in the
model the reproducible random source is the pure function `p.sampler`. -/
def simTraj {M : ℕ} (p : Params M) (seedS seedI : ℕ) : ℕ → SimState M
  | 0 => { G1 := zeroCorr M, Q := zeroCorr M }
  | k + 1 =>
    let st := simTraj p seedS seedI k
    if p.isIndist then stepDeg p (p.sampler seedS k) st
    else stepDist p (p.sampler seedS k) (p.sampler seedI k) st

/-- The G2 tensor of the run, src line 244: composed from the accumulator
states left by the full N-trial loop. -/
def simG2 {M : ℕ} (p : Params M) (seedS seedI : ℕ) : Mat2Q M :=
  composeG2 (simTraj p seedS seedI p.N).G1 (simTraj p seedS seedI p.N).Q

/-- The unwrapped G2 used by the reduction/illustration stage, src line 259. -/
def simG2unwrapped {M : ℕ} (p : Params M) (seedS seedI : ℕ) :
    Fin M → Fin M → Fin M → Fin M → ℚ :=
  unwrap_kron M (simG2 p seedS seedI)

/-- The single-photodetection probability map `P_ii` of the run, src line
211. -/
def simP_ii {M : ℕ} (p : Params M) (seedS seedI : ℕ) (i j : Fin M) : Cq :=
  P_masked (simTraj p seedS seedI p.N).G1.ii p.gnormI i j

/-- The single-photodetection probability map `P_ss` of the run, src line
212. -/
def simP_ss {M : ℕ} (p : Params M) (seedS seedI : ℕ) (i j : Fin M) : Cq :=
  P_masked (simTraj p seedS seedI p.N).G1.ss p.gnormS i j

theorem Cq.zero_re : (0 : Cq).re = 0 := rfl

theorem Cq.zero_im : (0 : Cq).im = 0 := rfl

theorem Cq.divN_zero (N : ℕ) : Cq.divN 0 N = 0 := by
  simp [Cq.divN, Cq.ext_iff, Cq.zero_re, Cq.zero_im]

theorem Cq.divN_add (x y : Cq) (N : ℕ) :
    Cq.divN (x + y) N = Cq.divN x N + Cq.divN y N := by
  simp [Cq.divN, Cq.add_def, Cq.ext_iff, add_div]

/-- Concrete configuration used to instantiate hypotheses of the run-level
theorems: 1×1 grid, one trial, degenerate mode, identity collaborators. -/
def testParams : Params 1 :=
  { N := 1
    isIndist := true
    sampler := fun _ _ _ _ _ => 0
    cryPropInd := fun _ => (fun _ _ => 0, fun _ _ => 0)
    cryProp := fun _ _ => ((fun _ _ => 0, fun _ _ => 0), (fun _ _ => 0, fun _ _ => 0))
    fourier := fun E => E
    ffnormS := 1
    ffnormI := 1
    gnormI := 1
    gnormS := 1 }

/-- C1: the G2 tensor is composed exactly once, from the accumulator states
left by the full N-trial loop, as the element-wise computation
G2 = Re(G1.ii ⊙ G1.ss + Q.si† ⊙ Q.si + G1.si† ⊙ G1.si) over M²×M² matrices;
the only later consumer (`unwrap_kron`, src line 259) reads that same value,
and in this functional embedding no mutation of G2 exists afterwards. -/
theorem C1_g2_composed_once {M : ℕ} (p : Params M) (seedS seedI : ℕ)
    (r c : Fin (M * M)) :
    simG2 p seedS seedI r c =
      ((simTraj p seedS seedI p.N).G1.ii r c * (simTraj p seedS seedI p.N).G1.ss r c +
        (simTraj p seedS seedI p.N).Q.si_dagger r c * (simTraj p seedS seedI p.N).Q.si r c +
        (simTraj p seedS seedI p.N).G1.si_dagger r c * (simTraj p seedS seedI p.N).G1.si r c).re ∧
    simG2unwrapped p seedS seedI = unwrap_kron M (simG2 p seedS seedI) :=
  ⟨rfl, rfl⟩

/-- C4: after every update call on a G1 or Q accumulator the four matrices
are M²×M² and square (enforced by the type `Mat2 M` of the fields of
`CorrState`), and `si_dagger` is exactly the conjugate transpose of `si`. -/
theorem C4_si_dagger_conj_transpose {M : ℕ} (st : CorrState M)
    (a b c d : Fld M) (N : ℕ) :
    (∀ r c', (G1update st a b c d N).si_dagger r c' =
      Cq.conj ((G1update st a b c d N).si c' r)) ∧
    (∀ r c', (Qupdate st a b c d N).si_dagger r c' =
      Cq.conj ((Qupdate st a b c d N).si c' r)) :=
  ⟨fun _ _ => rfl, fun _ _ => rfl⟩

/-- C6: unwrapping an M²×M² tensor to M×M×M×M by inverting the flattening
i·M+j ↦ (i, j) and re-flattening with the same index map reproduces the
tensor exactly (proved for every M, in particular every M ≥ 1). -/
theorem C6_unwrap_reflatten_roundtrip {α : Type} (M : ℕ)
    (T : Fin (M * M) → Fin (M * M) → α) :
    reflatten M (unwrap_kron M T) = T := by
  funext r c
  unfold reflatten unwrap_kron
  rw [pairF_fdiv_fmod, pairF_fdiv_fmod]

/-- C9: two runs with the same two PRNG seeds, the same N and the same
configuration (the whole `Params` record, which carries N, the flag, the
random source and every external collaborator) produce bit-identical
accumulator states after every trial, and identical final G2.  The
trajectory is a pure function of the configuration and the two seeds; the
model has no other input. -/
theorem C9_seed_reproducibility {M : ℕ} (p p' : Params M) (sS sS' sI sI' : ℕ)
    (hp : p = p') (hS : sS = sS') (hI : sI = sI') :
    (∀ k, simTraj p sS sI k = simTraj p' sS' sI' k) ∧
    simG2 p sS sI = simG2 p' sS' sI' := by
  subst hp; subst hS; subst hI
  exact ⟨fun _ => rfl, rfl⟩

theorem C9_seed_reproducibility_witness :
    (∀ k, simTraj testParams 1986 1989 k = simTraj testParams 1986 1989 k) ∧
    simG2 testParams 1986 1989 = simG2 testParams 1986 1989 :=
  C9_seed_reproducibility testParams testParams 1986 1986 1989 1989 rfl rfl rfl

/-- C10: when the indistinguishable flag is set, the idler vacuum array
(drawn from the second seed, src line 82) is never read by the trial loop:
every computed result — the accumulator trajectory, G2 and both
photodetection maps — is identical for any value of the idler seed. -/
theorem C10_idler_seed_irrelevant {M : ℕ} (p : Params M)
    (h : p.isIndist = true) (sS sI sI' : ℕ) :
    (∀ k, simTraj p sS sI k = simTraj p sS sI' k) ∧
    simG2 p sS sI = simG2 p sS sI' ∧
    simP_ii p sS sI = simP_ii p sS sI' ∧
    simP_ss p sS sI = simP_ss p sS sI' := by
  have htraj : ∀ k, simTraj p sS sI k = simTraj p sS sI' k := by
    intro k
    induction k with
    | zero => rfl
    | succ k ih => simp [simTraj, h, ih]
  refine ⟨htraj, ?_, ?_, ?_⟩
  · unfold simG2; rw [htraj]
  · unfold simP_ii; rw [htraj]
  · unfold simP_ss; rw [htraj]

theorem C10_idler_seed_irrelevant_witness :
    (∀ k, simTraj testParams 1986 1989 k = simTraj testParams 1986 2024 k) ∧
    simG2 testParams 1986 1989 = simG2 testParams 1986 2024 ∧
    simP_ii testParams 1986 1989 = simP_ii testParams 1986 2024 ∧
    simP_ss testParams 1986 1989 = simP_ss testParams 1986 2024 :=
  C10_idler_seed_irrelevant testParams rfl 1986 1989 2024

/-- C3: with the indistinguishable flag set, every trial of the loop takes
the degenerate step; both idler slots of the argument tuple handed to
`G1.update` and `Q.update` receive exactly the signal far-field output and
vacuum arrays; and those arguments are built without the two-field
propagator (replacing `cryProp` leaves them unchanged — only the signal is
propagated). -/
theorem C3_degenerate_aliasing {M : ℕ} (p : Params M)
    (h : p.isIndist = true) (sS sI n : ℕ) :
    (simTraj p sS sI (n + 1) = stepDeg p (p.sampler sS n) (simTraj p sS sI n)) ∧
    (∀ vac, (degArgs p vac).2.2.1 = (degArgs p vac).1 ∧
      (degArgs p vac).2.2.2 = (degArgs p vac).2.1) ∧
    (∀ vac f, degArgs { p with cryProp := f } vac = degArgs p vac) := by
  refine ⟨?_, fun vac => ⟨rfl, rfl⟩, fun vac f => rfl⟩
  simp [simTraj, h]

theorem C3_degenerate_aliasing_witness :
    (simTraj testParams 1986 1989 1 =
      stepDeg testParams (testParams.sampler 1986 0) (simTraj testParams 1986 1989 0)) ∧
    (∀ vac, (degArgs testParams vac).2.2.1 = (degArgs testParams vac).1 ∧
      (degArgs testParams vac).2.2.2 = (degArgs testParams vac).2.1) ∧
    (∀ vac f, degArgs { testParams with cryProp := f } vac = degArgs testParams vac) :=
  C3_degenerate_aliasing testParams rfl 1986 1989 0

/-- Constant-one test field on the 1×1 grid. -/
def oneFld : Fld 1 := fun _ _ => ⟨1, 0⟩

/-- Constant argument sequence feeding the accumulator with the constant-one
field in all four slots. -/
def C2cexArgs : ℕ → Fld 1 × Fld 1 × Fld 1 × Fld 1 := fun _ => (oneFld, oneFld, oneFld, oneFld)

/-- C2 counterexample: with N = 2 configured trials, after k = 1 update with
the constant-one field the `ii` matrix holds 1/2 (the single outer product
divided by the full N), not the 1-trial arithmetic mean 1, so the claimed
running-mean-over-k invariant fails for k < N. -/
theorem C2_counterexample :
    ¬ ((G1iter C2cexArgs 2 1).ii = meanOuterK (fun n => (C2cexArgs n).2.2.2) 1) := by
  intro h
  have h0 := congrFun (congrFun h ⟨0, by norm_num⟩) ⟨0, by norm_num⟩
  simp [G1iter, G1update, zeroCorr, meanOuterK, sumUpTo, kron, conjF, oneFld, C2cexArgs,
    Cq.divN, Cq.mul_def, Cq.add_def, Cq.ext_iff, Cq.conj, Cq.zero_re, Cq.zero_im] at h0

/-- C2 (amended): after k update calls each accumulator matrix equals the sum
of the k per-trial Kronecker outer products divided by the fixed configured
total N — hence it equals the k-trial arithmetic mean only at k = N.  (G1
correlates conjugated vacuum fields; Q correlates output with vacuum.) -/
theorem C2_amended_sum_over_N {M : ℕ}
    (args : ℕ → Fld M × Fld M × Fld M × Fld M) (N k : ℕ) (r c : Fin (M * M)) :
    (G1iter args N k).ii r c =
      Cq.divN (sumUpTo (fun n => kron (conjF (args n).2.2.2) (args n).2.2.2 r c) k) N ∧
    (G1iter args N k).ss r c =
      Cq.divN (sumUpTo (fun n => kron (conjF (args n).2.1) (args n).2.1 r c) k) N ∧
    (G1iter args N k).si r c =
      Cq.divN (sumUpTo (fun n => kron (conjF (args n).2.2.2) (args n).2.1 r c) k) N ∧
    (Qiter args N k).ii r c =
      Cq.divN (sumUpTo (fun n => kron (args n).2.2.1 (args n).2.2.2 r c) k) N ∧
    (Qiter args N k).ss r c =
      Cq.divN (sumUpTo (fun n => kron (args n).1 (args n).2.1 r c) k) N ∧
    (Qiter args N k).si r c =
      Cq.divN (sumUpTo (fun n => kron (args n).2.2.1 (args n).2.1 r c) k) N := by
  induction k with
  | zero =>
    refine ⟨?_, ?_, ?_, ?_, ?_, ?_⟩ <;>
      simp [G1iter, Qiter, zeroCorr, sumUpTo, Cq.divN_zero]
  | succ k ih =>
    obtain ⟨h1, h2, h3, h4, h5, h6⟩ := ih
    refine ⟨?_, ?_, ?_, ?_, ?_, ?_⟩ <;>
      simp [G1iter, Qiter, G1update, Qupdate, sumUpTo, Cq.divN_add, h1, h2, h3, h4, h5, h6]

/-- Test field on the 2×2 grid with E[0,0] = 1, E[0,1] = i, zero elsewhere. -/
def C5cexE : Fld 2 := fun i j =>
  if i.val = 0 ∧ j.val = 0 then ⟨1, 0⟩
  else if i.val = 0 ∧ j.val = 1 then ⟨0, 1⟩ else 0

/-- Constant argument sequence feeding the accumulator with `C5cexE` in all
four slots. -/
def C5cexArgs : ℕ → Fld 2 × Fld 2 × Fld 2 × Fld 2 := fun _ => (C5cexE, C5cexE, C5cexE, C5cexE)

/-- C5 counterexample: after one completed update (M = 2, N = 1) the stored
`ii` matrix is not Hermitian — e.g. ii[0,1] = i while conj(ii[1,0]) = 0 —
because the `np.kron` flattening interleaves the bra and ket mode indices. -/
theorem C5_counterexample :
    ¬ (∀ r c, (G1iter C5cexArgs 1 1).ii r c =
      Cq.conj ((G1iter C5cexArgs 1 1).ii c r)) := by
  intro h
  have h0 := h ⟨0, by norm_num⟩ ⟨1, by norm_num⟩
  simp [G1iter, G1update, zeroCorr, kron, conjF, C5cexE, C5cexArgs, fdiv, fmod,
    Cq.divN, Cq.conj, Cq.mul_def, Cq.add_def, Cq.ext_iff, Cq.zero_re, Cq.zero_im] at h0

/-- C5 (amended): after any number of completed updates the `ii` and `ss`
matrices are Hermitian under the Kronecker pairing — entry (i·M+a, j·M+b)
equals the conjugate of entry (a·M+i, b·M+j), i.e. the underlying 4-index
tensor is Hermitian under exchange of its two mode pairs — but the stored
M²×M² matrices are not Hermitian as matrices, because the `np.kron`
flattening interleaves the two index pairs. -/
theorem C5_amended_kron_hermitian {M : ℕ}
    (args : ℕ → Fld M × Fld M × Fld M × Fld M) (N k : ℕ) (i a j b : Fin M) :
    (G1iter args N k).ii (pairF i a) (pairF j b) =
      Cq.conj ((G1iter args N k).ii (pairF a i) (pairF b j)) ∧
    (G1iter args N k).ss (pairF i a) (pairF j b) =
      Cq.conj ((G1iter args N k).ss (pairF a i) (pairF b j)) := by
  induction k with
  | zero =>
    constructor <;> simp [G1iter, zeroCorr, Cq.conj_zero]
  | succ k ih =>
    obtain ⟨h1, h2⟩ := ih
    constructor
    · show (G1iter args N k).ii (pairF i a) (pairF j b) +
          Cq.divN (kron (conjF ((args k).2.2.2)) ((args k).2.2.2) (pairF i a) (pairF j b)) N =
        Cq.conj ((G1iter args N k).ii (pairF a i) (pairF b j) +
          Cq.divN (kron (conjF ((args k).2.2.2)) ((args k).2.2.2) (pairF a i) (pairF b j)) N)
      rw [Cq.conj_add, ← h1, Cq.conj_divN, kron_pairF, kron_pairF]
      simp only [conjF]
      rw [Cq.conj_conj_mul]
    · show (G1iter args N k).ss (pairF i a) (pairF j b) +
          Cq.divN (kron (conjF ((args k).2.1)) ((args k).2.1) (pairF i a) (pairF j b)) N =
        Cq.conj ((G1iter args N k).ss (pairF a i) (pairF b j) +
          Cq.divN (kron (conjF ((args k).2.1)) ((args k).2.1) (pairF a i) (pairF b j)) N)
      rw [Cq.conj_add, ← h2, Cq.conj_divN, kron_pairF, kron_pairF]
      simp only [conjF]
      rw [Cq.conj_conj_mul]

/-- C7: for every valid G1/Q input — `ii` and `ss` Hermitian with
non-negative diagonals, and `si_dagger` the conjugate transpose of `si` for
both accumulators — every diagonal entry of the composed G2 is non-negative
(and real: `composeG2` is real-valued by construction, taking `np.real`). -/
theorem C7_g2_diagonal_nonneg {M : ℕ} (g1 q : CorrState M)
    (hII : ∀ r c, g1.ii r c = Cq.conj (g1.ii c r))
    (hSS : ∀ r c, g1.ss r c = Cq.conj (g1.ss c r))
    (hIId : ∀ r, 0 ≤ (g1.ii r r).re)
    (hSSd : ∀ r, 0 ≤ (g1.ss r r).re)
    (hG1d : ∀ r c, g1.si_dagger r c = Cq.conj (g1.si c r))
    (hQd : ∀ r c, q.si_dagger r c = Cq.conj (q.si c r)) :
    ∀ k, 0 ≤ composeG2 g1 q k k := by
  intro k
  have hIm : (g1.ii k k).im = 0 := by
    have h := congrArg Cq.im (hII k k)
    simp [Cq.conj] at h
    linarith
  have hIm2 : (g1.ss k k).im = 0 := by
    have h := congrArg Cq.im (hSS k k)
    simp [Cq.conj] at h
    linarith
  unfold composeG2
  rw [hG1d, hQd]
  simp [Cq.mul_def, Cq.add_def, Cq.conj, hIm, hIm2]
  nlinarith [hIId k, hSSd k, sq_nonneg ((q.si k k).re), sq_nonneg ((q.si k k).im),
    sq_nonneg ((g1.si k k).re), sq_nonneg ((g1.si k k).im)]

theorem C7_g2_diagonal_nonneg_witness :
    0 ≤ composeG2 (zeroCorr 1) (zeroCorr 1) ⟨0, by omega⟩ ⟨0, by omega⟩ :=
  C7_g2_diagonal_nonneg (zeroCorr 1) (zeroCorr 1)
    (by decide) (by decide) (by decide) (by decide) (by decide) (by decide) ⟨0, by omega⟩

theorem inSlice_iff {d : ℕ} (hd : 0 < d) (r : ℕ) : inSlice d r = true ↔ d ∣ r := by
  unfold inSlice
  rw [List.any_eq_true]
  constructor
  · rintro ⟨t, _, h⟩
    rw [beq_iff_eq] at h
    exact ⟨t, by rw [h, Nat.mul_comm]⟩
  · rintro ⟨t, ht⟩
    refine ⟨t, List.mem_range.mpr ?_, ?_⟩
    · have h1 : t ≤ d * t := Nat.le_mul_of_pos_left t hd
      have h2 : d * t = r := ht.symm
      omega
    · rw [beq_iff_eq, ht, Nat.mul_comm]

theorem filter_range_mul_eq (d : ℕ) (hd : 0 < d) :
    ∀ m : ℕ, (List.range (m * d)).filter (fun r => inSlice d r) =
      (List.range m).map (fun t => t * d) := by
  intro m
  induction m with
  | zero => simp
  | succ m ih =>
    have hrange : List.range ((m + 1) * d) =
        List.range (m * d) ++ (List.range d).map (fun x => m * d + x) := by
      rw [Nat.succ_mul]
      exact List.range_add (m * d) d
    rw [hrange, List.filter_append, ih, List.filter_map]
    have hdvd0 : d ∣ m * d := ⟨m, Nat.mul_comm m d⟩
    have hfil : (List.range d).filter ((fun r => inSlice d r) ∘ (fun x => m * d + x)) = [0] := by
      obtain ⟨e, he⟩ : ∃ e, d = e + 1 := ⟨d - 1, by omega⟩
      subst he
      rw [List.range_succ_eq_map]
      rw [List.filter_cons_of_pos]
      · have htail : List.filter ((fun r => inSlice (e + 1) r) ∘ (fun x => m * (e + 1) + x))
            (List.map Nat.succ (List.range e)) = [] := by
          rw [List.filter_eq_nil_iff]
          intro a ha
          obtain ⟨x, hx, hxa⟩ := List.mem_map.mp ha
          rw [List.mem_range] at hx
          show ¬ inSlice (e + 1) (m * (e + 1) + a) = true
          intro hsl
          have hdvd : (e + 1) ∣ m * (e + 1) + a := (inSlice_iff hd _).mp hsl
          have hdvda : (e + 1) ∣ a := (Nat.dvd_add_right ⟨m, Nat.mul_comm m (e + 1)⟩).mp hdvd
          have ha0 : a = 0 := Nat.eq_zero_of_dvd_of_lt hdvda (by omega)
          omega
        rw [htail]
      · show inSlice (e + 1) (m * (e + 1) + 0) = true
        rw [Nat.add_zero]
        exact (inSlice_iff hd _).mpr hdvd0
    rw [hfil, List.range_succ, List.map_append]
    simp

theorem natCrux (M : ℕ) :
    (List.range (M * M)).filter (fun x => inSlice (M + 1) x) =
      (List.range M).map (fun t => t * (M + 1)) := by
  have hd : 0 < M + 1 := Nat.succ_pos M
  have hmain := filter_range_mul_eq (M + 1) hd M
  have hsplit : List.range (M * (M + 1)) =
      List.range (M * M) ++ (List.range M).map (fun x => M * M + x) := by
    have h : M * (M + 1) = M * M + M := by ring
    rw [h, List.range_add]
  rw [hsplit, List.filter_append] at hmain
  have htail : ((List.range M).map (fun x => M * M + x)).filter (fun x => inSlice (M + 1) x) = [] := by
    rw [List.filter_map, List.filter_eq_nil_iff.mpr, List.map_nil]
    intro x hx
    rw [List.mem_range] at hx
    show ¬ inSlice (M + 1) (M * M + x) = true
    intro hsl
    have hdvd : (M + 1) ∣ M * M + x := (inSlice_iff hd _).mp hsl
    have hdvd2 : (M + 1) ∣ M * M + M := ⟨M, by ring⟩
    have hsub : (M + 1) ∣ (M * M + M) - (M * M + x) := Nat.dvd_sub' hdvd2 hdvd
    have hsub2 : (M * M + M) - (M * M + x) = M - x := by omega
    rw [hsub2] at hsub
    have h0 : M - x = 0 := Nat.eq_zero_of_dvd_of_lt hsub (by omega)
    omega
  rw [htail, List.append_nil] at hmain
  exact hmain

theorem filter_finRange_slice (M : ℕ) :
    (List.finRange (M * M)).filter (fun r => inSlice (M + 1) r.val) =
      (List.finRange M).map (@finMulDiag M) := by
  apply List.map_injective_iff.mpr (@Fin.val_injective (M * M))
  have hpred : (fun r : Fin (M * M) => inSlice (M + 1) r.val) =
      ((fun x => inSlice (M + 1) x) ∘ Fin.val) := rfl
  rw [hpred, ← List.filter_map, List.map_coe_finRange, natCrux, List.map_map]
  have hR : (Fin.val ∘ @finMulDiag M) = ((fun t => t * (M + 1)) ∘ Fin.val) := rfl
  rw [hR, ← List.map_map, List.map_coe_finRange]

theorem Kron_diag_ne_zero_iff {M : ℕ} (r c : Fin (M * M)) :
    Kron_diag M r c ≠ 0 ↔ (inSlice (M + 1) r.val && inSlice (M + 1) c.val) = true := by
  unfold Kron_diag
  by_cases h : (inSlice (M + 1) r.val && inSlice (M + 1) c.val) = true
  · simp [h]
  · simp [h]

theorem flatMap_if_filter {α β : Type} (p : α → Bool) (g : α → List β) :
    ∀ l : List α, (l.flatMap fun a => if p a then g a else []) = (l.filter p).flatMap g := by
  intro l
  induction l with
  | nil => rfl
  | cons a t ih =>
    by_cases h : p a = true
    · rw [List.flatMap_cons, List.filter_cons_of_pos h, List.flatMap_cons, if_pos h, ih]
    · rw [List.flatMap_cons, List.filter_cons_of_neg h, if_neg h, ih, List.nil_append]

theorem getD_flatMap {α β : Type} (d : β) (S : ℕ) (g : α → List β)
    (hg : ∀ a, (g a).length = S) :
    ∀ (l : List α) (i j : ℕ) (hi : i < l.length), j < S →
      (l.flatMap g).getD (i * S + j) d = (g (l.get ⟨i, hi⟩)).getD j d := by
  intro l
  induction l with
  | nil =>
    intro i j hi _
    exact absurd hi (by simp)
  | cons a t ih =>
    intro i j hi hj
    cases i with
    | zero =>
      rw [List.flatMap_cons]
      simp only [Nat.zero_mul, Nat.zero_add]
      have hlen : j < (g a).length := by rw [hg a]; exact hj
      rw [List.getD_append _ _ _ _ hlen]
      rfl
    | succ i =>
      have hexp : (i + 1) * S + j = S + (i * S + j) := by ring
      rw [List.flatMap_cons, hexp]
      have hlen : (g a).length ≤ S + (i * S + j) := by
        rw [hg a]; exact Nat.le_add_right S _
      rw [List.getD_append_right _ _ _ _ hlen]
      have hsub : S + (i * S + j) - (g a).length = i * S + j := by
        rw [hg a]; exact Nat.add_sub_cancel_left S _
      rw [hsub]
      have hi' : i < t.length := by
        have := hi
        simp at this
        omega
      exact ih i j hi' hj

theorem boolMask_kron_diag {M : ℕ} (K : Mat2 M) :
    boolMask K (fun r c => decide (Kron_diag M r c ≠ 0)) =
      (List.finRange M).flatMap
        (fun t => (List.finRange M).map (fun u => K (finMulDiag t) (finMulDiag u))) := by
  have hmask : (fun r c : Fin (M * M) => decide (Kron_diag M r c ≠ 0)) =
      (fun r c : Fin (M * M) => inSlice (M + 1) r.val && inSlice (M + 1) c.val) := by
    funext r c
    by_cases h : (inSlice (M + 1) r.val && inSlice (M + 1) c.val) = true
    · rw [h]
      exact decide_eq_true ((Kron_diag_ne_zero_iff r c).mpr h)
    · have hb : (inSlice (M + 1) r.val && inSlice (M + 1) c.val) = false := by
        revert h; cases (inSlice (M + 1) r.val && inSlice (M + 1) c.val) <;> simp
      rw [hb]
      exact decide_eq_false (fun hp => h ((Kron_diag_ne_zero_iff r c).mp hp))
  rw [hmask]
  unfold boolMask
  have hbody : (fun r : Fin (M * M) =>
        (((List.finRange (M * M)).filter
          (fun c => inSlice (M + 1) r.val && inSlice (M + 1) c.val)).map (fun c => K r c))) =
      (fun r : Fin (M * M) =>
        if inSlice (M + 1) r.val then
          ((List.finRange M).map (fun u => K r (finMulDiag u))) else []) := by
    funext r
    by_cases h : inSlice (M + 1) r.val = true
    · rw [if_pos h]
      have hp : (fun c : Fin (M * M) => inSlice (M + 1) r.val && inSlice (M + 1) c.val) =
          (fun c : Fin (M * M) => inSlice (M + 1) c.val) := by
        funext c; rw [h, Bool.true_and]
      rw [hp, filter_finRange_slice, List.map_map]
      rfl
    · rw [if_neg h]
      have hb : inSlice (M + 1) r.val = false := by
        revert h; cases inSlice (M + 1) r.val <;> simp
      have hnil : (List.finRange (M * M)).filter
          (fun c => inSlice (M + 1) r.val && inSlice (M + 1) c.val) = [] := by
        rw [List.filter_eq_nil_iff]
        intro c _
        rw [hb, Bool.false_and]
        exact Bool.false_ne_true
      rw [hnil, List.map_nil]
  rw [hbody, flatMap_if_filter, filter_finRange_slice, List.flatMap_map]

theorem reshape_boolMask {M : ℕ} (K : Mat2 M) (i j : Fin M) :
    reshapeIdx M (boolMask K (fun r c => decide (Kron_diag M r c ≠ 0))) 0 i j =
      K (finMulDiag i) (finMulDiag j) := by
  unfold reshapeIdx
  rw [boolMask_kron_diag]
  have hg : ∀ t : Fin M,
      ((List.finRange M).map (fun u => K (finMulDiag t) (finMulDiag u))).length = M := by
    intro t; rw [List.length_map, List.length_finRange]
  have hi : i.val < (List.finRange M).length := by
    rw [List.length_finRange]; exact i.isLt
  rw [getD_flatMap 0 M _ hg (List.finRange M) i.val j.val hi j.isLt]
  rw [List.get_finRange]
  have hj : j.val < ((List.finRange M).map
      (fun u => K (finMulDiag ⟨i.val, by simpa using hi⟩) (finMulDiag u))).length := by
    rw [List.length_map, List.length_finRange]; exact j.isLt
  rw [List.getD_eq_getElem _ _ hj, List.getElem_map, List.getElem_finRange]
  simp [Fin.eta]

/-- C8: the diagonal-indicator matrix built by the slice update
`Kron_diag[::M+1, ::M+1] = 1` is an M²×M² 0/1 matrix whose ones lie exactly
at positions (r, c) with r and c both multiples of M+1 (the equal-mode
entries of the Kronecker layout); and boolean-masking an M²×M² matrix (G1's
`ii` or `ss`) by its nonzero positions and reshaping to M×M yields at entry
(i, j) exactly the equal-mode value G1[i,j,i,j] that the per-element double
loop over grid indices produces on the 4-index Kronecker view. -/
theorem C8_diag_indicator_extraction {M : ℕ} (K : Mat2 M) (gnorm : ℚ)
    (r c : Fin (M * M)) (i j : Fin M) :
    (Kron_diag M r c = 1 ↔ ((M + 1) ∣ r.val ∧ (M + 1) ∣ c.val)) ∧
    (Kron_diag M r c = 0 ∨ Kron_diag M r c = 1) ∧
    P_masked K gnorm i j = P_elementLoop K gnorm i j := by
  have hd : 0 < M + 1 := Nat.succ_pos M
  refine ⟨?_, ?_, ?_⟩
  · unfold Kron_diag
    by_cases h : (inSlice (M + 1) r.val && inSlice (M + 1) c.val) = true
    · rw [if_pos h]
      rw [Bool.and_eq_true] at h
      obtain ⟨h1, h2⟩ := h
      constructor
      · intro _
        exact ⟨(inSlice_iff hd r.val).mp h1, (inSlice_iff hd c.val).mp h2⟩
      · intro _; rfl
    · rw [if_neg h]
      constructor
      · intro h01
        exact absurd h01 (by norm_num)
      · rintro ⟨hr, hc⟩
        refine absurd ?_ h
        rw [Bool.and_eq_true]
        exact ⟨(inSlice_iff hd r.val).mpr hr, (inSlice_iff hd c.val).mpr hc⟩
  · unfold Kron_diag
    by_cases h : (inSlice (M + 1) r.val && inSlice (M + 1) c.val) = true
    · right; rw [if_pos h]
    · left; rw [if_neg h]
  · unfold P_masked P_elementLoop kron4View
    rw [reshape_boolMask]
    have h1 : @finMulDiag M i = pairF i i := by
      apply Fin.ext
      show i.val * (M + 1) = i.val * M + i.val
      ring
    have h2 : @finMulDiag M j = pairF j j := by
      apply Fin.ext
      show j.val * (M + 1) = j.val * M + j.val
      ring
    rw [h1, h2]
